import Mathlib

/-!
Verification of the query-safety gateway of `ipython-neo4j`
(`src/ipython_neo4j/magic.py`), shallowly embedded in Lean 4.

Strings are modelled as `List Char`.  The Python whitespace class
(`\s` of the `re` module, and `str.strip`) is modelled by its ASCII
fragment, which is the only fragment the gateway's behaviour depends on.
-/

namespace IPyNeo4j

/-- Strings of the Python program, modelled as lists of characters. -/
abbrev Str := List Char

/-- ASCII fragment of Python's whitespace class (`\s` and `str.strip`):
space, tab, newline, carriage return, vertical tab, form feed. -/
def isPySpace (c : Char) : Bool :=
  c = ' ' || c = '\t' || c = '\n' || c = '\r' || c = Char.ofNat 11 || c = Char.ofNat 12

/-- Python `str.strip()`: drop leading and trailing whitespace. -/
def pyStrip (s : Str) : Str :=
  ((s.dropWhile isPySpace).reverse.dropWhile isPySpace).reverse

/-- Python `str.lower()` (ASCII fragment). -/
def pyLower (s : Str) : Str :=
  s.map Char.toLower

/-- The suffix of `ws` starting at its last newline character
(`none` when `ws` has no newline).  This is where `re.split` resumes
scanning after the greedy `\s*` of the separator pattern
`;\s*(?=\n|$)` backtracks to satisfy the lookahead. -/
def suffixFromLastNewline : Str → Option Str
  | [] => none
  | c :: cs =>
    match suffixFromLastNewline cs with
    | some s => some s
    | none => if c = '\n' then some (c :: cs) else none

/-- Prepend a character to the first part of a nonempty partition. -/
def cons1 (c : Char) : List Str → List Str
  | [] => [[c]]
  | p :: ps => (c :: p) :: ps

/-- Fuelled model of `re.split(r";\s*(?=\n|$)", query)` (flag
`re.MULTILINE`): scanning left to right, a separator match starts at a
`;`, greedily consumes following whitespace, and requires the position
after the consumed whitespace to be a newline or the end of the text;
the matched span is removed and the parts on either side are returned.
The fuel only serves structural recursion; `splitRaw` below supplies
enough fuel for it never to run out. -/
def splitRawF : Nat → Str → List Str
  | 0, s => [s]
  | fuel + 1, s =>
    match s with
    | [] => [[]]
    | c :: rest =>
      if c = ';' then
        let ws := rest.takeWhile isPySpace
        let tl := rest.dropWhile isPySpace
        if tl = [] then [[], []]
        else
          match suffixFromLastNewline ws with
          | some suf => [] :: splitRawF fuel (suf ++ tl)
          | none => cons1 c (splitRawF fuel rest)
      else cons1 c (splitRawF fuel rest)

/-- `re.split(_STMT_SEP_RE, query)` of `magic.py`. -/
def splitRaw (s : Str) : List Str :=
  splitRawF s.length s

/-- `_split_statements` of `magic.py`:
`[p.strip() for p in _STMT_SEP_RE.split(query) if p.strip()]`. -/
def split_statements (q : Str) : List Str :=
  ((splitRaw q).map pyStrip).filter (fun p => !p.isEmpty)

/-- Spec-side splitter (modelled from the spec's words, for the
characterization of `split_statements`): the text is divided at every
statement terminator `;` such that everything strictly between the `;`
and the next end-of-line (or the end of the text) is whitespace, i.e.
at every `;` sitting at the end of a line up to trailing whitespace.
No whitespace is consumed by the division itself. -/
def declSplit : Str → List Str
  | [] => [[]]
  | c :: rest =>
    if c = ';' && (rest.takeWhile (fun d => d != '\n')).all isPySpace
    then [] :: declSplit rest
    else cons1 c (declSplit rest)

/-! ## Effect classification and admission gate -/

/-- The closed `EffectClass` enumeration of the spec, as the strings the
code manipulates: `""` (unknown), `"r"`, `"w"`, `"rw"`, `"s"`. -/
def EffectClasses : List Str := [[], ['r'], ['w'], ['r', 'w'], ['s']]

/-- `_WRITE_TYPES = {"w", "rw", "s"}` of `magic.py`. -/
def WRITE_TYPES : List Str := [['w'], ['r', 'w'], ['s']]

/-- The precedence dictionary of `_most_restrictive_type`:
`{"s": 4, "rw": 3, "w": 2, "r": 1, "": 0}.get(t, 0)`. -/
def precedence (t : Str) : Nat :=
  if t = ['s'] then 4
  else if t = ['r', 'w'] then 3
  else if t = ['w'] then 2
  else if t = ['r'] then 1
  else 0

/-- `_most_restrictive_type` of `magic.py`:
`max(types, key=lambda t: precedence.get(t, 0), default="")`.
Python's `max` keeps the first element whose key is maximal. -/
def most_restrictive_type (types : List Str) : Str :=
  match types with
  | [] => []
  | t :: ts => ts.foldl (fun best x => if precedence best < precedence x then x else best) t

/-- The admission gate of `_run_cypher`:
`overall_type and overall_type in _WRITE_TYPES and not allow_write`
(`True` means the batch is rejected). -/
def admission_reject (t : Str) (allow_write : Bool) : Bool :=
  !t.isEmpty && WRITE_TYPES.contains t && !allow_write

/-! ## The database collaborator and the probe -/

/-- Query parameters: a mapping from names to (opaque) values. -/
abbrev Params := List (Str × Str)

/-- One record row, abstracted as a mapping from column name to value. -/
abbrev Rec := List (Str × Str)

/-- The `query_type` field of the driver's result summary
(`None` modelled as `none`). -/
structure Summary where
  query_type : Option Str
deriving DecidableEq, Repr

/-- One `driver.execute_query` invocation: the query text, the
parameters (`none` when `parameters_` is not passed, as in the EXPLAIN
probe), and the target database. -/
structure DbCall where
  text : Str
  params : Option Params
  database : Str
deriving DecidableEq, Repr

/-- The driver's response to one call: a result triple
`(records, summary, keys)`, or a raised exception. -/
inductive DbResp where
  | ok (records : List Rec) (summary : Summary) (keys : List Str)
  | exc (e : Str)
deriving DecidableEq, Repr

/-- The external driver, as an oracle: the response may depend on the
query and on how many calls were made before it. -/
abbrev Db := Nat → DbCall → DbResp

/-- The observable interaction state with the driver: number of calls
made so far and the ordered trace of the calls. -/
structure DbState where
  count : Nat
  trace : List DbCall
deriving DecidableEq, Repr

/-- Issue one driver call, recording it in the state. -/
def callDb (db : Db) (st : DbState) (c : DbCall) : DbResp × DbState :=
  (db st.count c, ⟨st.count + 1, st.trace ++ [c]⟩)

/-- The text sent by the probe: `f"EXPLAIN {query}"`. -/
def EXPLAIN_CMD : Str := "EXPLAIN ".toList

/-- How `_explain_query_type` turns the driver's response into a query
type string: an exception gives `""`; success gives
`(summary.query_type or "").lower()`. -/
def query_type_of_resp : DbResp → Str
  | .exc _ => []
  | .ok _ summary _ => pyLower (summary.query_type.getD [])

/-- `_explain_query_type` of `magic.py`: run `EXPLAIN query` (without
parameters) and map the response through `query_type_of_resp`; any
exception is caught and yields `""`. -/
def explain_query_type (db : Db) (st : DbState) (query database : Str) : Str × DbState :=
  let (resp, st1) := callDb db st ⟨EXPLAIN_CMD ++ query, none, database⟩
  (query_type_of_resp resp, st1)

/-! ## The batch executor (`_run_cypher`) -/

/-- What a `CypherResult(records=..., summary=..., keys=...)` holds. -/
structure CypherResult where
  records : List Rec
  summary : Summary
  keys : List Str
deriving DecidableEq, Repr

/-- The pre-flight loop of `_run_cypher`:
`qtypes = [_explain_query_type(driver, stmt, database) for stmt in statements]`. -/
def probe_all (db : Db) (stmts : List Str) (database : Str) (st : DbState) :
    List Str × DbState :=
  match stmts with
  | [] => ([], st)
  | s :: ss =>
    let (t, st1) := explain_query_type db st s database
    let (ts, st2) := probe_all db ss database st1
    (t :: ts, st2)

/-- The execution loop of `_run_cypher`: execute each statement in
order with the same parameters, collecting one `CypherResult` per
statement; the first raised exception aborts the loop. -/
def exec_all (db : Db) (stmts : List Str) (params : Params) (database : Str)
    (st : DbState) : Except Str (List CypherResult) × DbState :=
  match stmts with
  | [] => (.ok [], st)
  | s :: ss =>
    let (resp, st1) := callDb db st ⟨s, some params, database⟩
    match resp with
    | .exc e => (.error e, st1)
    | .ok recs summ ks =>
      match exec_all db ss params database st1 with
      | (.error e, st2) => (.error e, st2)
      | (.ok rest, st2) => (.ok (⟨recs, summ, ks⟩ :: rest), st2)

/-- What `_run_cypher` surfaces to the caller. -/
inductive RunOutcome where
  /-- `"No Cypher query provided"`: the split yielded no statement. -/
  | emptyBatch
  /-- `_render_write_blocked_html(query, overall_type)`: the admission
  gate rejected the batch; carries the full original query text and the
  resolved query type. -/
  | writeBlocked (query qtype : Str)
  /-- `render_error_html(exc, query)`: an execution raised; carries the
  exception and the full original query text. -/
  | execError (e query : Str)
  /-- All statements executed; one result per statement, in order. -/
  | success (results : List CypherResult)
deriving DecidableEq, Repr

/-- The core of `_run_cypher` of `magic.py`, from the statement split
onward: split, optionally probe every statement and gate the batch,
then execute the statements in order, aborting at the first raised
exception. -/
def run_cypher (db : Db) (query : Str) (params : Params) (database : Str)
    (allow_write no_preflight : Bool) : RunOutcome × DbState :=
  let statements := split_statements query
  if statements.isEmpty then (.emptyBatch, ⟨0, []⟩)
  else if no_preflight then
    match exec_all db statements params database ⟨0, []⟩ with
    | (.error e, st) => (.execError e query, st)
    | (.ok results, st) => (.success results, st)
  else
    let (qtypes, st1) := probe_all db statements database ⟨0, []⟩
    let overall := most_restrictive_type qtypes
    if admission_reject overall allow_write then
      (.writeBlocked query overall, st1)
    else
      match exec_all db statements params database st1 with
      | (.error e, st) => (.execError e query, st)
      | (.ok results, st) => (.success results, st)

/-- The probe calls `_run_cypher` makes for a statement list, in order. -/
def probe_calls (stmts : List Str) (database : Str) : List DbCall :=
  stmts.map (fun s => ⟨EXPLAIN_CMD ++ s, none, database⟩)

/-- The execution calls `_run_cypher` makes for a statement list, in
order, all with the same parameter mapping. -/
def exec_calls (stmts : List Str) (params : Params) (database : Str) : List DbCall :=
  stmts.map (fun s => ⟨s, some params, database⟩)

/-! ## Auxiliary notions for the statements and proofs -/

/-- Strip each part and drop the blank ones — the comprehension
`[p.strip() for p in parts if p.strip()]` applied to a raw partition. -/
def postSplit (L : List Str) : List Str :=
  (L.map pyStrip).filter (fun p => !p.isEmpty)

/-- `b` is `a` with some whitespace prepended. -/
def WsPrefixed (a b : Str) : Prop :=
  ∃ w, w.all isPySpace = true ∧ b = w ++ a

/-- Two raw partitions with the same first part whose later parts agree
up to leading whitespace.  `splitRaw` and `declSplit` produce
partitions related this way, hence equal after strip-and-filter. -/
def SplitRel (L L' : List Str) : Prop :=
  ∃ h t t', L = h :: t ∧ L' = h :: t' ∧ List.Forall₂ WsPrefixed t t'

/-! ## Concrete fixtures for witnesses and counterexamples -/

/-- A driver that answers every call with an empty read result. -/
def okDb : Db := fun _ _ => .ok [] ⟨some ['r']⟩ []

/-- A driver whose summaries report the schema query type. -/
def schemaDb : Db := fun _ _ => .ok [] ⟨some ['s']⟩ []

/-- A fixed exception message. -/
def boomMsg : Str := ['b', 'o', 'o', 'm']

/-- A driver that raises on its `k`-th call and succeeds otherwise. -/
def failAtDb (k : Nat) : Db := fun n _ =>
  if n = k then .exc boomMsg else .ok [] ⟨some ['r']⟩ []

/-- A two-statement batch text. -/
def qMM : Str := "MATCH (m) RETURN m;\nMATCH (p) RETURN p".toList

/-- A two-statement schema batch text. -/
def qIX : Str := "CREATE INDEX ix FOR (n:P) ON (n.a);\nDROP INDEX ix".toList

/-- A default database name. -/
def dbName : Str := "neo4j".toList

/-- The single-quote character. -/
def quoteChar : Char := Char.ofNat 39

/-- A query with a statement terminator embedded mid-line inside a
quoted string literal. -/
def obrienQuery : Str :=
  "MATCH (n) WHERE n.name = ".toList ++ [quoteChar] ++ "O;Brien".toList
    ++ [quoteChar] ++ " RETURN n".toList

/-! ## Helper lemmas -/

theorem contains_WRITE_TYPES (t : Str) : WRITE_TYPES.contains t = decide (t ∈ WRITE_TYPES) :=
  List.elem_eq_mem t WRITE_TYPES

theorem foldl_max_mem (ts : List Str) (t : Str) :
    ts.foldl (fun best x => if precedence best < precedence x then x else best) t = t ∨
    ts.foldl (fun best x => if precedence best < precedence x then x else best) t ∈ ts := by
  induction ts generalizing t with
  | nil => exact Or.inl rfl
  | cons x ts ih =>
    simp only [List.foldl_cons]
    by_cases hlt : precedence t < precedence x
    · rw [if_pos hlt]
      rcases ih x with h | h
      · exact Or.inr (by rw [h]; exact List.mem_cons_self x ts)
      · exact Or.inr (List.mem_cons_of_mem x h)
    · rw [if_neg hlt]
      rcases ih t with h | h
      · exact Or.inl h
      · exact Or.inr (List.mem_cons_of_mem x h)

theorem foldl_max_le (ts : List Str) (t : Str) :
    precedence t ≤
      precedence (ts.foldl (fun best x => if precedence best < precedence x then x else best) t) ∧
    ∀ x ∈ ts, precedence x ≤
      precedence (ts.foldl (fun best x => if precedence best < precedence x then x else best) t) := by
  induction ts generalizing t with
  | nil => exact ⟨Nat.le_refl _, by simp⟩
  | cons y ts ih =>
    simp only [List.foldl_cons]
    obtain ⟨h1, h2⟩ := ih (if precedence t < precedence y then y else t)
    constructor
    · refine Nat.le_trans ?_ h1
      by_cases hlt : precedence t < precedence y
      · rw [if_pos hlt]; exact Nat.le_of_lt hlt
      · rw [if_neg hlt]
    · intro x hx
      rcases List.mem_cons.mp hx with rfl | hx
      · refine Nat.le_trans ?_ h1
        by_cases hlt : precedence t < precedence x
        · rw [if_pos hlt]
        · rw [if_neg hlt]; exact Nat.le_of_not_lt hlt
      · exact h2 x hx

theorem most_restrictive_mem (ts : List Str) (h : ts ≠ []) :
    most_restrictive_type ts ∈ ts := by
  match ts with
  | t :: ts =>
    simp only [most_restrictive_type]
    rcases foldl_max_mem ts t with h1 | h1
    · rw [h1]; exact List.mem_cons_self t ts
    · exact List.mem_cons_of_mem t h1

theorem most_restrictive_is_max (ts : List Str) :
    ∀ x ∈ ts, precedence x ≤ precedence (most_restrictive_type ts) := by
  match ts with
  | [] => simp
  | t :: ts =>
    intro x hx
    simp only [most_restrictive_type]
    obtain ⟨h1, h2⟩ := foldl_max_le ts t
    rcases List.mem_cons.mp hx with rfl | hx
    · exact h1
    · exact h2 x hx

theorem precedence_inj_on :
    ∀ a ∈ EffectClasses, ∀ b ∈ EffectClasses, precedence a = precedence b → a = b := by
  decide

theorem suffixFromLastNewline_decomp (ws suf : Str)
    (h : suffixFromLastNewline ws = some suf) : ∃ pre, ws = pre ++ suf := by
  induction ws with
  | nil => simp [suffixFromLastNewline] at h
  | cons c cs ih =>
    simp only [suffixFromLastNewline] at h
    cases hcs : suffixFromLastNewline cs with
    | some s =>
      rw [hcs] at h
      obtain ⟨pre, hpre⟩ := ih (hcs.trans h)
      exact ⟨c :: pre, by simp [hpre]⟩
    | none =>
      rw [hcs] at h
      by_cases hc : c = '\n'
      · rw [if_pos hc] at h
        exact ⟨[], by simpa using h⟩
      · rw [if_neg hc] at h
        exact absurd h (by simp)

theorem suffixFromLastNewline_none_iff (ws : Str) :
    suffixFromLastNewline ws = none ↔ '\n' ∉ ws := by
  induction ws with
  | nil => simp [suffixFromLastNewline]
  | cons c cs ih =>
    simp only [suffixFromLastNewline, List.mem_cons]
    cases hcs : suffixFromLastNewline cs with
    | some s =>
      simp only []
      constructor
      · intro h; exact absurd h (by simp)
      · intro h
        exact absurd (ih.mpr (fun hm => h (Or.inr hm))) (by simp [hcs])
    | none =>
      by_cases hc : c = '\n'
      · simp [if_pos hc, hc]
      · simp only [if_neg hc]
        constructor
        · intro _
          intro hor
          rcases hor with h1 | h2
          · exact hc h1.symm
          · exact (ih.mp hcs) h2
        · intro _; trivial

theorem matchCond_iff (rest : Str) :
    (rest.dropWhile isPySpace = [] ∨ '\n' ∈ rest.takeWhile isPySpace) ↔
      (rest.takeWhile (fun d => d != '\n')).all isPySpace = true := by
  induction rest with
  | nil => simp
  | cons c cs ih =>
    by_cases hn : c = '\n'
    · subst hn
      simp [List.dropWhile_cons, List.takeWhile_cons, isPySpace]
    · by_cases hw : isPySpace c = true
      · rw [List.dropWhile_cons, List.takeWhile_cons, List.takeWhile_cons]
        simp only [hw, if_pos, bne_iff_ne, ne_eq, hn, not_false_eq_true, if_true]
        rw [List.all_cons]
        simp only [hw, Bool.true_and, List.mem_cons]
        constructor
        · intro h
          rcases h with h1 | h2
          · exact ih.mp (Or.inl h1)
          · rcases h2 with h2a | h2b
            · exact absurd h2a.symm hn
            · exact ih.mp (Or.inr h2b)
        · intro h
          rcases ih.mpr h with h1 | h2
          · exact Or.inl h1
          · exact Or.inr (Or.inr h2)
      · rw [List.dropWhile_cons, List.takeWhile_cons, List.takeWhile_cons]
        simp only [hw]
        simp only [Bool.false_eq_true, if_false, bne_iff_ne, ne_eq, hn, not_false_eq_true,
          if_true, List.all_cons]
        simp only [List.takeWhile_nil, List.not_mem_nil, or_false, Bool.false_eq_true,
          false_and, iff_false]
        simp [hw]

theorem isPySpace_ne_semicolon (c : Char) (h : isPySpace c = true) : c ≠ ';' := by
  intro hc
  subst hc
  exact absurd h (by decide)

theorem declSplit_ws_prepend (w : Str) (hw : w.all isPySpace = true) (s : Str) :
    ∀ p ps, declSplit s = p :: ps → declSplit (w ++ s) = (w ++ p) :: ps := by
  induction w with
  | nil => intro p ps h; simpa using h
  | cons c wtl ih =>
    intro p ps h
    rw [List.all_cons, Bool.and_eq_true] at hw
    have hc : c ≠ ';' := isPySpace_ne_semicolon c hw.1
    have hrec := ih hw.2 p ps h
    simp only [List.cons_append, declSplit, List.append_eq]
    rw [if_neg (by simp [hc]), hrec]
    rfl

theorem dropWhile_ws_append (w : Str) (hw : w.all isPySpace = true) (a : Str) :
    (w ++ a).dropWhile isPySpace = a.dropWhile isPySpace := by
  induction w with
  | nil => rfl
  | cons c wtl ih =>
    rw [List.all_cons, Bool.and_eq_true] at hw
    rw [List.cons_append, List.dropWhile_cons, if_pos hw.1]
    exact ih hw.2

theorem pyStrip_ws_prepend (w : Str) (hw : w.all isPySpace = true) (a : Str) :
    pyStrip (w ++ a) = pyStrip a := by
  simp only [pyStrip]
  rw [dropWhile_ws_append w hw a]

theorem SplitRel_cons1 (c : Char) (L L' : List Str) (h : SplitRel L L') :
    SplitRel (cons1 c L) (cons1 c L') := by
  obtain ⟨hd, t, t', rfl, rfl, hF⟩ := h
  exact ⟨c :: hd, t, t', rfl, rfl, hF⟩

theorem takeWhile_all_isPySpace (rest : Str) :
    (rest.takeWhile isPySpace).all isPySpace = true := by
  rw [List.all_eq_true]
  intro x hx
  exact List.mem_takeWhile_imp hx

theorem splitRawF_rel (fuel : Nat) : ∀ s : Str, s.length ≤ fuel →
    SplitRel (splitRawF fuel s) (declSplit s) := by
  induction fuel with
  | zero =>
    intro s hs
    have : s = [] := List.eq_nil_of_length_eq_zero (Nat.le_zero.mp hs)
    subst this
    exact ⟨[], [], [], rfl, rfl, List.Forall₂.nil⟩
  | succ fuel ih =>
    intro s hs
    match s with
    | [] => exact ⟨[], [], [], rfl, rfl, List.Forall₂.nil⟩
    | c :: rest =>
      have hlen : rest.length ≤ fuel := Nat.le_of_succ_le_succ hs
      by_cases hc : c = ';'
      · subst hc
        by_cases htl : rest.dropWhile isPySpace = []
        · have hraw : splitRawF (fuel + 1) (';' :: rest) = [[], []] := by
            simp [splitRawF, htl]
          have hrw : rest.all isPySpace = true := by
            rw [List.all_eq_true]
            exact (List.dropWhile_eq_nil_iff).mp htl
          have hB : (rest.takeWhile (fun d => d != '\n')).all isPySpace = true :=
            (matchCond_iff rest).mp (Or.inl htl)
          have hdecl : declSplit (';' :: rest) = [] :: declSplit rest := by
            simp [declSplit, hB]
          have hrest : declSplit rest = [rest] := by
            have := declSplit_ws_prepend rest hrw [] [] [] rfl
            simpa using this
          rw [hraw, hdecl, hrest]
          exact ⟨[], [[]], [rest], rfl, rfl,
            List.Forall₂.cons ⟨rest, hrw, by simp⟩ List.Forall₂.nil⟩
        · cases hsuf : suffixFromLastNewline (rest.takeWhile isPySpace) with
          | some suf =>
            have hraw : splitRawF (fuel + 1) (';' :: rest)
                = [] :: splitRawF fuel (suf ++ rest.dropWhile isPySpace) := by
              simp [splitRawF, htl, hsuf]
            obtain ⟨pre, hpre⟩ := suffixFromLastNewline_decomp _ _ hsuf
            have hws : (rest.takeWhile isPySpace).all isPySpace = true :=
              takeWhile_all_isPySpace rest
            have hpre_ws : pre.all isPySpace = true := by
              rw [hpre, List.all_append, Bool.and_eq_true] at hws
              exact hws.1
            have hrest_decomp : rest = pre ++ (suf ++ rest.dropWhile isPySpace) := by
              conv_lhs => rw [← List.takeWhile_append_dropWhile isPySpace rest]
              rw [hpre, List.append_assoc]
            have hlen2 : (rest.takeWhile isPySpace).length
                + (rest.dropWhile isPySpace).length = rest.length := by
              rw [← List.length_append, List.takeWhile_append_dropWhile]
            have hsufle : suf.length ≤ (rest.takeWhile isPySpace).length := by
              rw [hpre, List.length_append]
              exact Nat.le_add_left _ _
            have hsuflen : (suf ++ rest.dropWhile isPySpace).length ≤ fuel := by
              rw [List.length_append]
              omega
            obtain ⟨h0, t0, t0', heq, heq', hF⟩ := ih (suf ++ rest.dropWhile isPySpace) hsuflen
            have hnl : '\n' ∈ rest.takeWhile isPySpace := by
              by_contra hn
              rw [← suffixFromLastNewline_none_iff] at hn
              rw [hn] at hsuf
              exact absurd hsuf (by simp)
            have hB : (rest.takeWhile (fun d => d != '\n')).all isPySpace = true :=
              (matchCond_iff rest).mp (Or.inr hnl)
            have hdecl : declSplit (';' :: rest) = [] :: declSplit rest := by
              simp [declSplit, hB]
            have hdecl_rest : declSplit rest = (pre ++ h0) :: t0' := by
              conv_lhs => rw [hrest_decomp]
              exact declSplit_ws_prepend pre hpre_ws _ h0 t0' heq'
            rw [hraw, hdecl, hdecl_rest, heq]
            exact ⟨[], h0 :: t0, (pre ++ h0) :: t0', rfl, rfl,
              List.Forall₂.cons ⟨pre, hpre_ws, rfl⟩ hF⟩
          | none =>
            have hraw : splitRawF (fuel + 1) (';' :: rest)
                = cons1 ';' (splitRawF fuel rest) := by
              simp [splitRawF, htl, hsuf]
            have hnl : '\n' ∉ rest.takeWhile isPySpace :=
              (suffixFromLastNewline_none_iff _).mp hsuf
            have hB' : ¬ ((rest.takeWhile (fun d => d != '\n')).all isPySpace = true) := by
              intro hB
              rcases (matchCond_iff rest).mpr hB with h1 | h2
              · exact htl h1
              · exact hnl h2
            have hBfalse : (rest.takeWhile (fun d => d != '\n')).all isPySpace = false := by
              cases hBv : (rest.takeWhile (fun d => d != '\n')).all isPySpace with
              | false => rfl
              | true => exact absurd hBv hB'
            have hdecl : declSplit (';' :: rest) = cons1 ';' (declSplit rest) := by
              simp [declSplit, hBfalse]
            rw [hraw, hdecl]
            exact SplitRel_cons1 ';' _ _ (ih rest hlen)
      · have hraw : splitRawF (fuel + 1) (c :: rest) = cons1 c (splitRawF fuel rest) := by
          simp [splitRawF, hc]
        have hdecl : declSplit (c :: rest) = cons1 c (declSplit rest) := by
          simp [declSplit, hc]
        rw [hraw, hdecl]
        exact SplitRel_cons1 c _ _ (ih rest hlen)

theorem mapStrip_eq_of_forall2 (t t' : List Str) (hF : List.Forall₂ WsPrefixed t t') :
    t.map pyStrip = t'.map pyStrip := by
  induction hF with
  | nil => rfl
  | cons hp _ ih =>
    obtain ⟨w, hw, rfl⟩ := hp
    simp only [List.map_cons, ih, pyStrip_ws_prepend w hw]

theorem postSplit_eq_of_SplitRel (L L' : List Str) (h : SplitRel L L') :
    postSplit L = postSplit L' := by
  obtain ⟨hd, t, t', rfl, rfl, hF⟩ := h
  simp only [postSplit, List.map_cons]
  rw [mapStrip_eq_of_forall2 t t' hF]

theorem split_statements_eq_postSplit_decl (q : Str) :
    split_statements q = postSplit (declSplit q) :=
  postSplit_eq_of_SplitRel _ _ (splitRawF_rel q.length q (Nat.le_refl _))

theorem probe_all_state (db : Db) (database : Str) :
    ∀ (stmts : List Str) (st : DbState),
      (probe_all db stmts database st).2
        = ⟨st.count + stmts.length, st.trace ++ probe_calls stmts database⟩ := by
  intro stmts
  induction stmts with
  | nil => intro st; simp [probe_all, probe_calls]
  | cons s ss ih =>
    intro st
    simp only [probe_all, explain_query_type, callDb]
    rw [ih]
    simp only [probe_calls, List.map_cons, List.length_cons, DbState.mk.injEq]
    exact ⟨by omega, by simp⟩

theorem exec_all_trace_params (db : Db) (params : Params) (database : Str) :
    ∀ (stmts : List Str) (st : DbState) (c : DbCall),
      c ∈ (exec_all db stmts params database st).2.trace →
      c ∈ st.trace ∨ c.params = some params := by
  intro stmts
  induction stmts with
  | nil => intro st c hc; exact Or.inl hc
  | cons s ss ih =>
    intro st c hc
    simp only [exec_all, callDb] at hc
    cases hresp : db st.count ⟨s, some params, database⟩ with
    | exc e =>
      rw [hresp] at hc
      simp only [List.mem_append, List.mem_singleton] at hc
      rcases hc with h | h
      · exact Or.inl h
      · exact Or.inr (by rw [h])
    | ok recs summ ks =>
      rw [hresp] at hc
      rcases hE : exec_all db ss params database ⟨st.count + 1, st.trace ++ [⟨s, some params, database⟩]⟩
        with ⟨res1, st2⟩
      rw [hE] at hc
      have hc2 : c ∈ st2.trace := by
        cases res1 with
        | error e1 => exact hc
        | ok rest => exact hc
      have := ih ⟨st.count + 1, st.trace ++ [⟨s, some params, database⟩]⟩ c (by rw [hE]; exact hc2)
      rcases this with h | h
      · simp only [List.mem_append, List.mem_singleton] at h
        rcases h with h | h
        · exact Or.inl h
        · exact Or.inr (by rw [h])
      · exact Or.inr h

theorem exec_all_ok_spec (db : Db) (params : Params) (database : Str) :
    ∀ (stmts : List Str) (st : DbState) (rs : List CypherResult),
      (exec_all db stmts params database st).1 = .ok rs →
      (exec_all db stmts params database st).2
          = ⟨st.count + stmts.length, st.trace ++ exec_calls stmts params database⟩
      ∧ rs.length = stmts.length
      ∧ (∀ i s, stmts[i]? = some s → ∃ recs summ ks,
          db (st.count + i) ⟨s, some params, database⟩ = .ok recs summ ks ∧
          rs[i]? = some (⟨recs, summ, ks⟩ : CypherResult)) := by
  intro stmts
  induction stmts with
  | nil =>
    intro st rs h
    simp only [exec_all] at h ⊢
    injection h with h
    subst h
    refine ⟨by simp [exec_calls], rfl, ?_⟩
    intro i s hs
    simp at hs
  | cons s ss ih =>
    intro st rs h
    simp only [exec_all, callDb] at h ⊢
    cases hresp : db st.count ⟨s, some params, database⟩ with
    | exc e =>
      rw [hresp] at h
      dsimp only at h
      exact absurd h (by simp)
    | ok recs summ ks =>
      rw [hresp] at h
      dsimp only at h ⊢
      rcases hE : exec_all db ss params database
          ⟨st.count + 1, st.trace ++ [⟨s, some params, database⟩]⟩ with ⟨res1, st2⟩
      rw [hE] at h ⊢
      cases res1 with
      | error e1 =>
        dsimp only at h
        exact absurd h (by simp)
      | ok rest =>
        dsimp only at h ⊢
        simp only [Except.ok.injEq] at h
        subst h
        obtain ⟨hst, hlen, hidx⟩ := ih _ rest (by rw [hE])
        rw [hE] at hst
        dsimp only at hst
        refine ⟨?_, by simp [hlen], ?_⟩
        · rw [hst]
          simp only [exec_calls, List.map_cons, List.length_cons, DbState.mk.injEq]
          exact ⟨by omega, by simp⟩
        · intro i s1 hs1
          cases i with
          | zero =>
            simp only [List.getElem?_cons_zero, Option.some.injEq] at hs1
            subst hs1
            exact ⟨recs, summ, ks, by simpa using hresp, by simp⟩
          | succ j =>
            simp only [List.getElem?_cons_succ] at hs1 ⊢
            obtain ⟨r2, s2, k2, hdb, hrs⟩ := hidx j s1 hs1
            refine ⟨r2, s2, k2, ?_, hrs⟩
            have harith : st.count + 1 + j = st.count + (j + 1) := by omega
            rw [harith] at hdb
            exact hdb

theorem exec_all_error_spec (db : Db) (params : Params) (database : Str) :
    ∀ (stmts : List Str) (st : DbState) (e : Str),
      (exec_all db stmts params database st).1 = .error e →
      ∃ k s, stmts[k]? = some s ∧
        db (st.count + k) ⟨s, some params, database⟩ = .exc e ∧
        (exec_all db stmts params database st).2
          = ⟨st.count + (k + 1), st.trace ++ exec_calls (stmts.take (k + 1)) params database⟩ := by
  intro stmts
  induction stmts with
  | nil =>
    intro st e h
    simp only [exec_all] at h
    exact absurd h (by simp)
  | cons s ss ih =>
    intro st e h
    simp only [exec_all, callDb] at h ⊢
    cases hresp : db st.count ⟨s, some params, database⟩ with
    | exc e0 =>
      rw [hresp] at h
      dsimp only at h ⊢
      simp only [Except.error.injEq] at h
      subst h
      refine ⟨0, s, by simp, by simpa using hresp, ?_⟩
      simp [exec_calls]
    | ok recs summ ks =>
      rw [hresp] at h
      dsimp only at h ⊢
      rcases hE : exec_all db ss params database
          ⟨st.count + 1, st.trace ++ [⟨s, some params, database⟩]⟩ with ⟨res1, st2⟩
      rw [hE] at h ⊢
      cases res1 with
      | ok rest =>
        dsimp only at h
        exact absurd h (by simp)
      | error e1 =>
        dsimp only at h
        simp only [Except.error.injEq] at h
        subst h
        obtain ⟨k, s1, hs1, hdb, hst⟩ := ih _ e1 (by rw [hE])
        rw [hE] at hst
        dsimp only at hst
        refine ⟨k + 1, s1, by simpa using hs1, ?_, ?_⟩
        · have harith : st.count + 1 + k = st.count + (k + 1) := by omega
          rw [harith] at hdb
          exact hdb
        · dsimp only
          rw [hst]
          simp only [List.take_succ_cons, exec_calls, List.map_cons, DbState.mk.injEq]
          exact ⟨by omega, by simp⟩

theorem split_nonempty_of_run (query : Str) (hne : split_statements query ≠ []) :
    ∃ a l, split_statements query = a :: l := by
  cases h : split_statements query with
  | nil => exact absurd h hne
  | cons a l => exact ⟨a, l, rfl⟩

/-! ## The claims -/

/-- C1: for every resolved effect class `c` (an element of the closed
enumeration) and boolean `allowWrite`, the admission decision is reject
if and only if `c` is one of `w`, `rw`, `s` and `allowWrite` is false;
in every other case the decision is admit. -/
theorem admission_reject_iff (c : Str) (hc : c ∈ EffectClasses) (aw : Bool) :
    admission_reject c aw = true ↔ (c ∈ WRITE_TYPES ∧ aw = false) := by
  simp only [EffectClasses, List.mem_cons, List.not_mem_nil, or_false] at hc
  rcases hc with rfl | rfl | rfl | rfl | rfl
  all_goals cases aw <;> simp [admission_reject, WRITE_TYPES, List.contains]

/-- Witness for C1 at the concrete class `w` with `allowWrite = false`. -/
theorem admission_reject_iff_witness :
    ((['w'] : Str) ∈ EffectClasses) ∧
    (admission_reject ['w'] false = true ↔ ((['w'] : Str) ∈ WRITE_TYPES ∧ false = false)) :=
  ⟨by decide, admission_reject_iff ['w'] (by decide) false⟩

/-- C2 counterexample: a successfully probed category string `X` is
returned lower-cased verbatim as `x`, which lies outside the closed
`EffectClass` enumeration and is not mapped to unknown. -/
theorem probe_class_not_closed :
    query_type_of_resp (DbResp.ok [] ⟨some ['X']⟩ []) = ['x'] ∧
    (['x'] : Str) ∉ EffectClasses ∧ (['x'] : Str) ≠ [] := by
  exact ⟨by decide, by decide, by decide⟩

/-- C2 (amended): the probe never propagates a failure — any exception
yields unknown `""`; on success the reported category string is
returned lower-cased (a missing report yields `""`), recognized
categories map to themselves, but an unrecognized reported value is
returned verbatim rather than mapped to unknown. -/
theorem explain_query_type_fail_soft (r : DbResp) :
    (∀ e, r = .exc e → query_type_of_resp r = []) ∧
    (∀ recs ks, r = .ok recs ⟨none⟩ ks → query_type_of_resp r = []) ∧
    (∀ recs summ ks, r = .ok recs summ ks →
      query_type_of_resp r = pyLower (summ.query_type.getD []) ∧
      (summ.query_type.getD [] ∈ EffectClasses →
        query_type_of_resp r = summ.query_type.getD [])) := by
  refine ⟨?_, ?_, ?_⟩
  · rintro e rfl; rfl
  · rintro recs ks rfl; rfl
  · rintro recs summ ks rfl
    refine ⟨rfl, ?_⟩
    intro hmem
    have hfix : ∀ t ∈ EffectClasses, pyLower t = t := by decide
    simp only [query_type_of_resp]
    exact hfix _ hmem

/-- Witness for C2 at a raised exception and at a reported `r`. -/
theorem explain_query_type_fail_soft_witness :
    query_type_of_resp (DbResp.exc boomMsg) = [] ∧
    query_type_of_resp (DbResp.ok [] ⟨some ['r']⟩ []) = ['r'] :=
  ⟨(explain_query_type_fail_soft (DbResp.exc boomMsg)).1 boomMsg rfl,
   ((explain_query_type_fail_soft (DbResp.ok [] ⟨some ['r']⟩ [])).2.2
      [] ⟨some ['r']⟩ [] rfl).2 (by decide)⟩

/-- C3: for every input, `split_statements` divides the text exactly at
statement terminators sitting immediately before an end-of-line or the
end of the text (optionally followed by whitespace), trims each
segment, and drops the blank ones — the declarative line-boundary
splitter `declSplit` followed by strip-and-filter.  In particular a
mid-line terminator (also one inside a quoted string literal) is never
a split point, and blank input yields the empty sequence. -/
theorem split_statements_line_boundary_spec :
    (∀ q : Str, split_statements q = postSplit (declSplit q)) ∧
    split_statements obrienQuery = [obrienQuery] ∧
    split_statements [] = [] ∧
    split_statements ("   \n  ".toList) = [] ∧
    split_statements ("A;\n;\nB;".toList) = [['A'], ['B']] :=
  ⟨split_statements_eq_postSplit_decl, by decide, by decide, by decide, by decide⟩

/-- C4: over sequences drawn from the closed enumeration, the resolver
returns the classification of highest rank under
`s(4) > rw(3) > w(2) > r(1) > unknown(0)`, and `""` on empty input. -/
theorem most_restrictive_total_order (ts : List Str) (hts : ∀ t ∈ ts, t ∈ EffectClasses) :
    (ts = [] → most_restrictive_type ts = []) ∧
    (ts ≠ [] → most_restrictive_type ts ∈ ts) ∧
    (∀ t ∈ ts, precedence t ≤ precedence (most_restrictive_type ts)) ∧
    (∀ t ∈ ts, (∀ u ∈ ts, precedence u ≤ precedence t) → most_restrictive_type ts = t) := by
  refine ⟨?_, most_restrictive_mem ts, most_restrictive_is_max ts, ?_⟩
  · rintro rfl; rfl
  · intro t ht hmax
    have hne : ts ≠ [] := List.ne_nil_of_mem ht
    have hm := most_restrictive_mem ts hne
    have h1 : precedence (most_restrictive_type ts) ≤ precedence t := hmax _ hm
    have h2 : precedence t ≤ precedence (most_restrictive_type ts) :=
      most_restrictive_is_max ts t ht
    exact precedence_inj_on _ (hts _ hm) _ (hts _ ht) (Nat.le_antisymm h1 h2)

/-- Witness for C4 on the sequence `[r, rw, w, s]`. -/
theorem most_restrictive_total_order_witness :
    most_restrictive_type [['r'], ['r', 'w'], ['w'], ['s']]
      ∈ ([['r'], ['r', 'w'], ['w'], ['s']] : List Str) :=
  (most_restrictive_total_order [['r'], ['r', 'w'], ['w'], ['s']] (by decide)).2.1 (by decide)

/-- C5: a batch whose resolved effect class is rejected by the
admission gate returns immediately with a `writeBlocked` outcome
carrying the offending class and the full original query text, and the
driver trace holds exactly the probe calls — zero statements were
executed. -/
theorem run_cypher_rejected_blocks_all (db : Db) (query : Str) (params : Params)
    (database : Str) (aw : Bool)
    (hne : split_statements query ≠ [])
    (hrej : admission_reject (most_restrictive_type
        (probe_all db (split_statements query) database ⟨0, []⟩).1) aw = true) :
    run_cypher db query params database aw false
      = (.writeBlocked query (most_restrictive_type
            (probe_all db (split_statements query) database ⟨0, []⟩).1),
         ⟨(split_statements query).length,
          probe_calls (split_statements query) database⟩) := by
  obtain ⟨s0, ss0, hsplit⟩ := split_nonempty_of_run query hne
  rw [hsplit] at hrej ⊢
  rcases hP : probe_all db (s0 :: ss0) database ⟨0, []⟩ with ⟨qtypes, st1⟩
  rw [hP] at hrej
  simp only at hrej
  have hst1 : st1 = ⟨(s0 :: ss0).length, probe_calls (s0 :: ss0) database⟩ := by
    have h2 := probe_all_state db database (s0 :: ss0) ⟨0, []⟩
    rw [hP] at h2
    simpa using h2
  simp [run_cypher, hsplit, hP, hrej, hst1]

/-- Witness for C5: a two-statement schema batch under a driver whose
probes report `s`, submitted without write permission. -/
theorem run_cypher_rejected_blocks_all_witness :
    run_cypher schemaDb qIX [] dbName false false
      = (.writeBlocked qIX (most_restrictive_type
            (probe_all schemaDb (split_statements qIX) dbName ⟨0, []⟩).1),
         ⟨(split_statements qIX).length,
          probe_calls (split_statements qIX) dbName⟩) :=
  run_cypher_rejected_blocks_all schemaDb qIX [] dbName false (by decide) (by decide)

/-- C6 counterexample: two runs of the same two-statement batch in
which the first, respectively the second, statement raises produce the
same surfaced outcome (same exception, same full query text), even
though their driver traces show different statements failed — the
surfaced error does not identify the failing statement's position. -/
theorem run_cypher_error_no_position :
    (run_cypher (failAtDb 0) qMM [] dbName false true).1
      = (run_cypher (failAtDb 1) qMM [] dbName false true).1 ∧
    (run_cypher (failAtDb 0) qMM [] dbName false true).2.trace
      ≠ (run_cypher (failAtDb 1) qMM [] dbName false true).2.trace :=
  ⟨by decide, by decide⟩

/-- C6 (amended): when an execution raises, the batch stops at the
first failing statement — the trace holds the probe calls and the
execution calls only up to and including the failing one, collected
outcomes are discarded (the outcome is an error, not a result list),
and the surfaced error carries the raised exception together with the
full original query text (not the failing statement's position). -/
theorem run_cypher_abort_semantics (db : Db) (query : Str) (params : Params)
    (database : Str) (aw pf : Bool) (e q2 : Str)
    (h : (run_cypher db query params database aw pf).1 = .execError e q2) :
    q2 = query ∧
    ∃ k s, (split_statements query)[k]? = some s ∧
      db ((if pf then 0 else (split_statements query).length) + k)
          ⟨s, some params, database⟩ = .exc e ∧
      (run_cypher db query params database aw pf).2.trace
        = (if pf then [] else probe_calls (split_statements query) database)
          ++ exec_calls ((split_statements query).take (k + 1)) params database := by
  have hne : split_statements query ≠ [] := by
    intro hnil
    rw [run_cypher] at h
    simp [hnil] at h
  obtain ⟨s0, ss0, hsplit⟩ := split_nonempty_of_run query hne
  rw [hsplit]
  cases pf with
  | true =>
    have hrun : run_cypher db query params database aw true
        = match exec_all db (s0 :: ss0) params database ⟨0, []⟩ with
          | (.error e1, st) => (.execError e1 query, st)
          | (.ok results, st) => (.success results, st) := by
      simp [run_cypher, hsplit]
    rcases hEx : exec_all db (s0 :: ss0) params database ⟨0, []⟩ with ⟨res, st⟩
    rw [hrun, hEx] at h ⊢
    cases res with
    | ok rest => simp at h
    | error e1 =>
      simp only [RunOutcome.execError.injEq] at h
      obtain ⟨he, hq⟩ := h
      subst he
      subst hq
      obtain ⟨k, s, hs, hdb, hst⟩ := exec_all_error_spec db params database (s0 :: ss0) ⟨0, []⟩ e1
        (by rw [hEx])
      rw [hEx] at hst
      simp only at hst
      refine ⟨rfl, k, s, hs, by simpa using hdb, ?_⟩
      rw [hst]
      simp
  | false =>
    rcases hP : probe_all db (s0 :: ss0) database ⟨0, []⟩ with ⟨qtypes, st1⟩
    have hst1 : st1 = ⟨(s0 :: ss0).length, probe_calls (s0 :: ss0) database⟩ := by
      have h2 := probe_all_state db database (s0 :: ss0) ⟨0, []⟩
      rw [hP] at h2
      simpa using h2
    cases hgate : admission_reject (most_restrictive_type qtypes) aw with
    | true =>
      have hrun : run_cypher db query params database aw false
          = (.writeBlocked query (most_restrictive_type qtypes), st1) := by
        simp [run_cypher, hsplit, hP, hgate]
      rw [hrun] at h
      simp at h
    | false =>
      have hrun : run_cypher db query params database aw false
          = match exec_all db (s0 :: ss0) params database st1 with
            | (.error e1, st) => (.execError e1 query, st)
            | (.ok results, st) => (.success results, st) := by
        simp [run_cypher, hsplit, hP, hgate]
      rcases hEx : exec_all db (s0 :: ss0) params database st1 with ⟨res, st⟩
      rw [hrun, hEx] at h ⊢
      cases res with
      | ok rest => simp at h
      | error e1 =>
        simp only [RunOutcome.execError.injEq] at h
        obtain ⟨he, hq⟩ := h
        subst he
        subst hq
        obtain ⟨k, s, hs, hdb, hst⟩ := exec_all_error_spec db params database (s0 :: ss0) st1 e1
          (by rw [hEx])
        rw [hEx] at hst
        simp only at hst
        rw [hst1] at hdb hst
        simp only at hdb hst
        refine ⟨rfl, k, s, hs, hdb, ?_⟩
        rw [hst]
        simp

/-- Witness for C6: a batch whose first statement raises. -/
theorem run_cypher_abort_semantics_witness :
    qMM = qMM ∧
    ∃ k s, (split_statements qMM)[k]? = some s ∧
      failAtDb 0 ((if (true : Bool) then 0 else (split_statements qMM).length) + k)
          ⟨s, some [], dbName⟩ = .exc boomMsg ∧
      (run_cypher (failAtDb 0) qMM [] dbName false true).2.trace
        = (if (true : Bool) then [] else probe_calls (split_statements qMM) dbName)
          ++ exec_calls ((split_statements qMM).take (k + 1)) [] dbName :=
  run_cypher_abort_semantics (failAtDb 0) qMM [] dbName false true boomMsg qMM (by decide)

/-- C7: for every batch that runs to success, the driver trace is
exactly the probe calls (unless probing was skipped) followed by the
execution calls, both enumerating the split statements in their
original order with the same parameter mapping for every execution;
the result holds exactly one outcome per statement, in order, each
being the driver's response to that statement's execution. -/
theorem run_cypher_preserves_order (db : Db) (query : Str) (params : Params)
    (database : Str) (aw pf : Bool) (rs : List CypherResult)
    (h : (run_cypher db query params database aw pf).1 = .success rs) :
    (run_cypher db query params database aw pf).2.trace
      = (if pf then [] else probe_calls (split_statements query) database)
        ++ exec_calls (split_statements query) params database
    ∧ rs.length = (split_statements query).length
    ∧ (∀ i s, (split_statements query)[i]? = some s → ∃ recs summ ks,
        db ((if pf then 0 else (split_statements query).length) + i)
            ⟨s, some params, database⟩ = .ok recs summ ks ∧
        rs[i]? = some (⟨recs, summ, ks⟩ : CypherResult)) := by
  have hne : split_statements query ≠ [] := by
    intro hnil
    rw [run_cypher] at h
    simp [hnil] at h
  obtain ⟨s0, ss0, hsplit⟩ := split_nonempty_of_run query hne
  rw [hsplit]
  cases pf with
  | true =>
    have hrun : run_cypher db query params database aw true
        = match exec_all db (s0 :: ss0) params database ⟨0, []⟩ with
          | (.error e, st) => (.execError e query, st)
          | (.ok results, st) => (.success results, st) := by
      simp [run_cypher, hsplit]
    rcases hEx : exec_all db (s0 :: ss0) params database ⟨0, []⟩ with ⟨res, st⟩
    rw [hrun, hEx] at h ⊢
    cases res with
    | error e => simp at h
    | ok rest =>
      simp only at h ⊢
      have hrs : rest = rs := by simpa using h
      subst hrs
      obtain ⟨hst, hlen, hidx⟩ := exec_all_ok_spec db params database (s0 :: ss0) ⟨0, []⟩ rest
        (by rw [hEx])
      rw [hEx] at hst
      simp only at hst
      rw [hst]
      refine ⟨by simp, hlen, ?_⟩
      intro i s hs
      simpa using hidx i s hs
  | false =>
    rcases hP : probe_all db (s0 :: ss0) database ⟨0, []⟩ with ⟨qtypes, st1⟩
    have hst1 : st1 = ⟨(s0 :: ss0).length, probe_calls (s0 :: ss0) database⟩ := by
      have h2 := probe_all_state db database (s0 :: ss0) ⟨0, []⟩
      rw [hP] at h2
      simpa using h2
    cases hgate : admission_reject (most_restrictive_type qtypes) aw with
    | true =>
      have hrun : run_cypher db query params database aw false
          = (.writeBlocked query (most_restrictive_type qtypes), st1) := by
        simp [run_cypher, hsplit, hP, hgate]
      rw [hrun] at h
      simp at h
    | false =>
      have hrun : run_cypher db query params database aw false
          = match exec_all db (s0 :: ss0) params database st1 with
            | (.error e, st) => (.execError e query, st)
            | (.ok results, st) => (.success results, st) := by
        simp [run_cypher, hsplit, hP, hgate]
      rcases hEx : exec_all db (s0 :: ss0) params database st1 with ⟨res, st⟩
      rw [hrun, hEx] at h ⊢
      cases res with
      | error e => simp at h
      | ok rest =>
        simp only at h ⊢
        have hrs : rest = rs := by simpa using h
        subst hrs
        obtain ⟨hst, hlen, hidx⟩ := exec_all_ok_spec db params database (s0 :: ss0) st1 rest
          (by rw [hEx])
        rw [hEx] at hst
        simp only at hst
        rw [hst, hst1]
        refine ⟨by simp, hlen, ?_⟩
        intro i s hs
        have := hidx i s hs
        rw [hst1] at this
        simpa using this

/-- Witness for C7: a two-statement read batch that runs to success. -/
theorem run_cypher_preserves_order_witness :
    (run_cypher okDb qMM [] dbName false false).2.trace
      = (if (false : Bool) then [] else probe_calls (split_statements qMM) dbName)
        ++ exec_calls (split_statements qMM) [] dbName
    ∧ ([⟨[], ⟨some ['r']⟩, []⟩, ⟨[], ⟨some ['r']⟩, []⟩] : List CypherResult).length
        = (split_statements qMM).length
    ∧ (∀ i s, (split_statements qMM)[i]? = some s → ∃ recs summ ks,
        okDb ((if (false : Bool) then 0 else (split_statements qMM).length) + i)
            ⟨s, some [], dbName⟩ = .ok recs summ ks ∧
        ([⟨[], ⟨some ['r']⟩, []⟩, ⟨[], ⟨some ['r']⟩, []⟩] : List CypherResult)[i]?
          = some (⟨recs, summ, ks⟩ : CypherResult)) :=
  run_cypher_preserves_order okDb qMM [] dbName false false
    [⟨[], ⟨some ['r']⟩, []⟩, ⟨[], ⟨some ['r']⟩, []⟩] (by decide)

/-- C8: a non-empty batch submitted with probing skipped issues no
EXPLAIN probe (every driver call carries the execution parameters) and
is never write-blocked, and its outcome does not depend on the
`allowWrite` flag. -/
theorem run_cypher_no_preflight_admits (db : Db) (query : Str) (params : Params)
    (database : Str) (aw : Bool) (hne : split_statements query ≠ []) :
    (∀ c ∈ (run_cypher db query params database aw true).2.trace, c.params = some params) ∧
    (∀ q2 t, (run_cypher db query params database aw true).1 ≠ .writeBlocked q2 t) ∧
    run_cypher db query params database aw true = run_cypher db query params database true true := by
  obtain ⟨s0, ss0, hsplit⟩ := split_nonempty_of_run query hne
  have hrun : ∀ b : Bool, run_cypher db query params database b true
      = match exec_all db (s0 :: ss0) params database ⟨0, []⟩ with
        | (.error e, st) => (.execError e query, st)
        | (.ok results, st) => (.success results, st) := by
    intro b
    simp [run_cypher, hsplit]
  rcases hEx : exec_all db (s0 :: ss0) params database ⟨0, []⟩ with ⟨res, st⟩
  refine ⟨?_, ?_, ?_⟩
  · intro c hc
    have hsnd : (run_cypher db query params database aw true).2 = st := by
      rw [hrun aw, hEx]
      cases res <;> rfl
    rw [hsnd] at hc
    have := exec_all_trace_params db params database (s0 :: ss0) ⟨0, []⟩ c (by rw [hEx]; exact hc)
    rcases this with h | h
    · exact absurd h (List.not_mem_nil c)
    · exact h
  · intro q2 t
    rw [hrun aw, hEx]
    cases res <;> simp
  · rw [hrun aw, hrun true]

/-- Witness for C8: the two-statement batch under the read driver. -/
theorem run_cypher_no_preflight_admits_witness :
    (∀ c ∈ (run_cypher okDb qMM [] dbName false true).2.trace, c.params = some []) ∧
    (∀ q2 t, (run_cypher okDb qMM [] dbName false true).1 ≠ .writeBlocked q2 t) ∧
    run_cypher okDb qMM [] dbName false true = run_cypher okDb qMM [] dbName true true :=
  run_cypher_no_preflight_admits okDb qMM [] dbName false (by decide)

/-- C9: on a non-empty input the resolver returns an element of the
input — it never fabricates a classification; in particular an
unrecognized category string is returned verbatim, ranked at the
lowest precedence. -/
theorem most_restrictive_never_fabricates (ts : List Str) (h : ts ≠ []) :
    most_restrictive_type ts ∈ ts ∧
    most_restrictive_type [['x']] = ['x'] ∧ precedence ['x'] = 0 :=
  ⟨most_restrictive_mem ts h, by decide, by decide⟩

/-- Witness for C9 on a list holding an unrecognized string. -/
theorem most_restrictive_never_fabricates_witness :
    most_restrictive_type [['x'], []] ∈ ([['x'], []] : List Str) :=
  (most_restrictive_never_fabricates [['x'], []] (by decide)).1

/-- C10: the gate blocks only the exact strings `w`, `rw`, `s`; every
other classification string — recognized or not — is admitted
regardless of the `allowWrite` flag. -/
theorem admission_admits_unrecognized (c : Str) (hc : c ∉ WRITE_TYPES) (aw : Bool) :
    admission_reject c aw = false := by
  simp [admission_reject, contains_WRITE_TYPES, hc]

/-- Witness for C10 at the unrecognized non-empty string `x`. -/
theorem admission_admits_unrecognized_witness :
    admission_reject ['x'] false = false :=
  admission_admits_unrecognized ['x'] (by decide) false

end IPyNeo4j
